import Mathlib

/-!
# Verification of the LRU + TTL cache (`pkg/cache/lru_cache.go`)

A shallow embedding of the Go cache engine.  The Go structures are
translated as follows:

* `map[string]*lruItem` becomes an association list `List (String × lruItem V)`
  whose keys are kept distinct by the operations (mirroring the map).
* `container/list.List` of keys (front = most recently used) becomes a
  `List String`; a `list.Element` pointer held by an item is represented by
  the occurrence of the item's key in that list, so `MoveToFront(item.element)`
  becomes "erase the key's occurrence, cons it at the front" and
  `Remove(item.element)` becomes "erase the key's occurrence".
* `time.Time` / `time.Duration` become `Int` (nanoseconds); the current time
  is passed explicitly to the operations that consult the clock
  (`time.Now()` in `Get` and `Set`).  `time.Now().After(t)` is the strict
  comparison `t < now`.
* the `atomic.Uint64` statistics counters become `Nat` (they are only ever
  incremented, reset to zero, and read).
* `interface{}` values become a type parameter `V`.
* `float64` arithmetic in `Stats` is modelled over `Rat`.

The background goroutine `cleanupExpired` is not part of any claim's
footprint here; the foreground operations are modelled as sequential
(each Go method runs under the cache mutex).
-/

namespace LruCache

/-- Struct `lruItem` from the source.  The Go struct's `key` field is represented by
the association-list key it is stored under, and its `element` pointer by the
key's occurrence in `lruList`. -/
structure lruItem (V : Type) where
  value : V
  expiration : Int
deriving DecidableEq, Repr

/-- Struct `LRUCache` from the source (sans mutex, which serializes operations). -/
structure LRUCache (V : Type) where
  capacity : Int
  ttl : Int
  items : List (String × lruItem V)
  lruList : List String
  hits : Nat
  misses : Nat
  evictions : Nat
  expirations : Nat
deriving DecidableEq, Repr

/-- Struct `CacheStats` from the source; `HitRate` (`float64` in Go) is modelled
over `Rat`. -/
structure CacheStats where
  Hits : Nat
  Misses : Nat
  HitRate : Rat
  Evictions : Nat
  Expirations : Nat
  Size : Nat
  Capacity : Int
deriving DecidableEq, Repr

variable {V : Type}

/-- Constructor `NewLRUCache`: builds the cache record.  The Go constructor performs no
validation of `capacity` or `ttl`; it also starts the cleanup goroutine,
which is outside this embedding. -/
def NewLRUCache (V : Type) (capacity ttl : Int) : LRUCache V :=
  { capacity := capacity
    ttl := ttl
    items := []
    lruList := []
    hits := 0
    misses := 0
    evictions := 0
    expirations := 0 }

/-- Lookup `c.items[key]` of the Go map, as the unique association-list entry
whose key matches. -/
def findItem (c : LRUCache V) (key : String) : Option (String × lruItem V) :=
  c.items.find? (fun p => p.1 == key)

/-- Helper `remove` (caller holds the lock): if the key is present, unlink its list
element and delete it from the map. -/
def remove (c : LRUCache V) (key : String) : LRUCache V :=
  match c.items.find? (fun p => p.1 == key) with
  | some _ =>
      { c with
        lruList := c.lruList.erase key
        items := c.items.eraseP (fun p => p.1 == key) }
  | none => c

/-- Helper `evictOldest`: remove the back of the LRU list, if any, and count an
eviction. -/
def evictOldest (c : LRUCache V) : LRUCache V :=
  match c.lruList.getLast? with
  | some key =>
      let c' := remove c key
      { c' with evictions := c'.evictions + 1 }
  | none => c

/-- Operation `Get`: returns the value (if present and unexpired) and the state after
the call.  Expiry test is Go's `time.Now().After(item.expiration)`, i.e.
strict `expiration < now`. -/
def Get (c : LRUCache V) (key : String) (now : Int) :
    Option V × LRUCache V :=
  match c.items.find? (fun p => p.1 == key) with
  | none => (none, { c with misses := c.misses + 1 })
  | some p =>
      if p.2.expiration < now then
        let c' := remove c key
        (none, { c' with
                  expirations := c'.expirations + 1
                  misses := c'.misses + 1 })
      else
        (some p.2.value,
         { c with
            lruList := key :: c.lruList.erase key
            hits := c.hits + 1 })

/-- Operation `Set`: update in place and move to front if the key exists; otherwise
evict the oldest entry when `lruList.Len() >= capacity`, then push the new
entry at the front with `expiration = now + ttl`. -/
def Set (c : LRUCache V) (key : String) (value : V) (now : Int) :
    LRUCache V :=
  match c.items.find? (fun p => p.1 == key) with
  | some _ =>
      { c with
        items := c.items.map
          (fun p => if p.1 == key then (p.1, ⟨value, now + c.ttl⟩) else p)
        lruList := key :: c.lruList.erase key }
  | none =>
      let c1 := if c.capacity ≤ (c.lruList.length : Int) then evictOldest c else c
      { c1 with
        items := (key, ⟨value, now + c1.ttl⟩) :: c1.items
        lruList := key :: c1.lruList }

/-- Operation `Delete`: take the lock and `remove`. -/
def Delete (c : LRUCache V) (key : String) : LRUCache V :=
  remove c key

/-- Operation `Clear`: fresh map and fresh list; counters untouched. -/
def Clear (c : LRUCache V) : LRUCache V :=
  { c with items := [], lruList := [] }

/-- Operation `Size`: `len(c.items)`. -/
def Size (c : LRUCache V) : Nat :=
  c.items.length

/-- Operation `Stats`: snapshot of the counters, with
`hitRate = hits/total*100` when `total > 0`, else `0`. -/
def Stats (c : LRUCache V) : CacheStats :=
  let hits := c.hits
  let misses := c.misses
  let total := hits + misses
  let hitRate : Rat := if 0 < total then (hits : Rat) / (total : Rat) * 100 else 0
  { Hits := hits
    Misses := misses
    HitRate := hitRate
    Evictions := c.evictions
    Expirations := c.expirations
    Size := c.items.length
    Capacity := c.capacity }

/-- Operation `ResetStats`: zero the four counters. -/
def ResetStats (c : LRUCache V) : LRUCache V :=
  { c with hits := 0, misses := 0, evictions := 0, expirations := 0 }

/-- One foreground cache operation (with its observation time where the Go
method reads the clock). -/
inductive CacheOp (V : Type) where
  | get (key : String) (now : Int)
  | set (key : String) (value : V) (now : Int)
  | del (key : String)
  | clear
deriving DecidableEq, Repr

/-- Apply one operation to the state (discarding `Get`'s returned value). -/
def applyOp (c : LRUCache V) : CacheOp V → LRUCache V
  | .get key now => (Get c key now).2
  | .set key value now => Set c key value now
  | .del key => Delete c key
  | .clear => Clear c

/-- Run a finite sequence of operations. -/
def runOps (c : LRUCache V) (ops : List (CacheOp V)) : LRUCache V :=
  ops.foldl applyOp c

/-- The keys currently stored in the map. -/
def keys (c : LRUCache V) : List String :=
  c.items.map Prod.fst

/-- Structural well-formedness tying the map to the recency list: no
duplicate list positions, no duplicate map keys, and the same keys on both
sides (each stored entry owns exactly one recency position holding its key). -/
def Bij (c : LRUCache V) : Prop :=
  c.lruList.Nodup ∧ (c.items.map Prod.fst).Nodup ∧
    (∀ k ∈ c.lruList, k ∈ c.items.map Prod.fst) ∧
    (∀ k ∈ c.items.map Prod.fst, k ∈ c.lruList)

instance (c : LRUCache V) : Decidable (Bij c) := by
  unfold Bij
  infer_instance

/-! ## Helper lemmas about the association list and the recency list -/

lemma find_none_of_not_mem (items : List (String × lruItem V)) (key : String)
    (h : key ∉ items.map Prod.fst) :
    items.find? (fun p => p.1 == key) = none := by
  rw [List.find?_eq_none]
  intro p hp hbeq
  exact h (List.mem_map.mpr ⟨p, hp, eq_of_beq hbeq⟩)

lemma not_mem_of_find_none {items : List (String × lruItem V)} {key : String}
    (h : items.find? (fun p => p.1 == key) = none) :
    key ∉ items.map Prod.fst := by
  intro hmem
  obtain ⟨p, hp, hpk⟩ := List.mem_map.mp hmem
  exact List.find?_eq_none.mp h p hp (hpk ▸ beq_self_eq_true key)

lemma mem_of_find_some {items : List (String × lruItem V)} {key : String}
    {p : String × lruItem V}
    (h : items.find? (fun q => q.1 == key) = some p) :
    p.1 = key ∧ key ∈ items.map Prod.fst := by
  have h1 : p.1 = key := by
    have hb := List.find?_some h
    simpa using hb
  exact ⟨h1, List.mem_map.mpr ⟨p, List.mem_of_find?_eq_some h, h1⟩⟩

lemma map_fst_eraseP (items : List (String × lruItem V)) (key : String) :
    (items.eraseP (fun p => p.1 == key)).map Prod.fst
      = (items.map Prod.fst).erase key := by
  induction items with
  | nil => rfl
  | cons a t ih =>
    by_cases h : a.1 = key
    · simp [List.eraseP_cons, List.erase_cons, h]
    · simp [List.eraseP_cons, List.erase_cons, h, ih]

lemma map_fst_update (items : List (String × lruItem V)) (key : String)
    (it : lruItem V) :
    (items.map (fun p => if p.1 == key then (p.1, it) else p)).map Prod.fst
      = items.map Prod.fst := by
  rw [List.map_map]
  apply List.map_congr_left
  rintro ⟨a, b⟩ _
  by_cases h : a = key <;> simp [Function.comp, h]

lemma find_map_update (items : List (String × lruItem V)) (key : String)
    (it : lruItem V)
    (h : (items.find? (fun p => p.1 == key)).isSome) :
    (items.map (fun p => if p.1 == key then (p.1, it) else p)).find?
        (fun p => p.1 == key) = some (key, it) := by
  induction items with
  | nil => simp at h
  | cons a t ih =>
    by_cases ha : a.1 = key
    · simp [List.find?_cons, ha]
    · have hfa : (a.1 == key) = false := by simp [ha]
      simp only [List.map_cons, List.find?_cons, hfa, if_false,
        Bool.false_eq_true] at h ⊢
      exact ih h

/-! ## Frame lemmas: fields untouched by the inner operations -/

lemma remove_frame (c : LRUCache V) (key : String) :
    (remove c key).capacity = c.capacity ∧ (remove c key).ttl = c.ttl ∧
    (remove c key).hits = c.hits ∧ (remove c key).misses = c.misses ∧
    (remove c key).evictions = c.evictions ∧
    (remove c key).expirations = c.expirations := by
  unfold remove
  split <;> exact ⟨rfl, rfl, rfl, rfl, rfl, rfl⟩

lemma evictOldest_frame (c : LRUCache V) :
    (evictOldest c).capacity = c.capacity ∧ (evictOldest c).ttl = c.ttl ∧
    (evictOldest c).hits = c.hits ∧ (evictOldest c).misses = c.misses := by
  unfold evictOldest
  split
  · rename_i key heq
    exact ⟨(remove_frame c key).1, (remove_frame c key).2.1,
      (remove_frame c key).2.2.1, (remove_frame c key).2.2.2.1⟩
  · exact ⟨rfl, rfl, rfl, rfl⟩

lemma set_hits (c : LRUCache V) (key : String) (v : V) (now : Int) :
    (Set c key v now).hits = c.hits := by
  unfold Set
  split
  · rfl
  · split
    · exact (evictOldest_frame c).2.2.1
    · rfl

lemma set_ttl (c : LRUCache V) (key : String) (v : V) (now : Int) :
    (Set c key v now).ttl = c.ttl := by
  unfold Set
  split
  · rfl
  · split
    · exact (evictOldest_frame c).2.1
    · rfl

/-- After `Set c key v now`, looking the key up finds the freshly written
item with `expiration = now + c.ttl`. -/
lemma find_set (c : LRUCache V) (key : String) (v : V) (now : Int) :
    (Set c key v now).items.find? (fun p => p.1 == key)
      = some (key, ⟨v, now + c.ttl⟩) := by
  unfold Set
  cases hf : c.items.find? (fun p => p.1 == key) with
  | some p =>
    simp only
    exact find_map_update c.items key _ (by rw [hf]; rfl)
  | none =>
    simp only [List.find?_cons]
    have httl : (if c.capacity ≤ (c.lruList.length : Int) then evictOldest c
        else c).ttl = c.ttl := by
      split
      · exact (evictOldest_frame c).2.1
      · rfl
    simp [httl]

/-- A set key is read back unexpired whenever the TTL is non-negative. -/
lemma get_set_value (c : LRUCache V) (key : String) (v : V) (now : Int)
    (httl : 0 ≤ c.ttl) :
    (Get (Set c key v now) key now).1 = some v ∧
    (Get (Set c key v now) key now).2.hits = c.hits + 1 := by
  have hfind := find_set c key v now
  have hnotexp : ¬ (now + c.ttl < now) := by omega
  constructor
  · unfold Get
    rw [hfind]
    simp [hnotexp]
  · unfold Get
    rw [hfind]
    simp [hnotexp, set_hits]

/-! ## The entry↔recency bijection and its preservation -/

lemma bij_perm {c : LRUCache V} (h : Bij c) :
    c.lruList.Perm (c.items.map Prod.fst) :=
  (List.perm_ext_iff_of_nodup h.1 h.2.1).mpr
    (fun a => ⟨fun ha => h.2.2.1 a ha, fun ha => h.2.2.2 a ha⟩)

lemma bij_length {c : LRUCache V} (h : Bij c) :
    c.lruList.length = c.items.length := by
  simpa using (bij_perm h).length_eq

lemma bij_remove {c : LRUCache V} (h : Bij c) (key : String) :
    Bij (remove c key) := by
  obtain ⟨hl, hk, hlk, hkl⟩ := h
  unfold remove
  cases hf : c.items.find? (fun p => p.1 == key) with
  | none => exact ⟨hl, hk, hlk, hkl⟩
  | some p =>
    refine ⟨hl.erase key, ?_, ?_, ?_⟩
    · rw [map_fst_eraseP]
      exact hk.erase key
    · intro k hkmem
      rw [map_fst_eraseP]
      rcases hl.mem_erase_iff.mp hkmem with ⟨hne, hmem⟩
      exact hk.mem_erase_iff.mpr ⟨hne, hlk k hmem⟩
    · intro k hkmem
      rw [map_fst_eraseP] at hkmem
      rcases hk.mem_erase_iff.mp hkmem with ⟨hne, hmem⟩
      exact hl.mem_erase_iff.mpr ⟨hne, hkl k hmem⟩

lemma bij_evictOldest {c : LRUCache V} (h : Bij c) :
    Bij (evictOldest c) := by
  unfold evictOldest
  split
  · rename_i key heq
    exact bij_remove h key
  · exact h

lemma bij_clear (c : LRUCache V) : Bij (Clear c) :=
  ⟨List.nodup_nil, List.nodup_nil,
    fun k hk => absurd hk (List.not_mem_nil k),
    fun k hk => absurd hk (List.not_mem_nil k)⟩

lemma bij_get {c : LRUCache V} (h : Bij c) (key : String) (now : Int) :
    Bij (Get c key now).2 := by
  unfold Get
  cases hf : c.items.find? (fun p => p.1 == key) with
  | none => exact h
  | some p =>
    by_cases hexp : p.2.expiration < now
    · simp only [if_pos hexp]
      exact bij_remove h key
    · simp only [if_neg hexp]
      obtain ⟨hl, hk, hlk, hkl⟩ := h
      have hmem : key ∈ c.items.map Prod.fst := (mem_of_find_some hf).2
      refine ⟨List.nodup_cons.mpr ⟨hl.not_mem_erase, hl.erase key⟩, hk, ?_, ?_⟩
      · intro k hkm
        rcases List.mem_cons.mp hkm with h1 | h2
        · exact h1 ▸ hmem
        · exact hlk k (hl.mem_erase_iff.mp h2).2
      · intro k hkm
        by_cases hkey : k = key
        · exact hkey ▸ List.mem_cons_self key _
        · exact List.mem_cons_of_mem _ (hl.mem_erase_iff.mpr ⟨hkey, hkl k hkm⟩)

lemma keys_remove_subset (c : LRUCache V) (key : String) :
    (remove c key).items.map Prod.fst ⊆ c.items.map Prod.fst := by
  unfold remove
  split
  · rw [map_fst_eraseP]
    exact (List.erase_sublist key _).subset
  · exact fun a ha => ha

lemma keys_evictOldest_subset (c : LRUCache V) :
    (evictOldest c).items.map Prod.fst ⊆ c.items.map Prod.fst := by
  unfold evictOldest
  split
  · rename_i key heq
    exact keys_remove_subset c key
  · exact fun a ha => ha

/-- Pushing a genuinely new key at the front preserves the bijection. -/
lemma bij_insert {c : LRUCache V} (h : Bij c) (key : String) (it : lruItem V)
    (hnot : key ∉ c.items.map Prod.fst) :
    Bij { c with items := (key, it) :: c.items,
                 lruList := key :: c.lruList } := by
  obtain ⟨hl, hk, hlk, hkl⟩ := h
  have hnotl : key ∉ c.lruList := fun hm => hnot (hlk key hm)
  refine ⟨List.nodup_cons.mpr ⟨hnotl, hl⟩, ?_, ?_, ?_⟩
  · simpa using List.nodup_cons.mpr ⟨hnot, hk⟩
  · intro k hkm
    simp only [List.map_cons, List.mem_cons]
    rcases List.mem_cons.mp hkm with h1 | h2
    · exact Or.inl h1
    · exact Or.inr (hlk k h2)
  · intro k hkm
    simp only [List.map_cons, List.mem_cons] at hkm
    rcases hkm with h1 | h2
    · exact h1 ▸ List.mem_cons_self _ _
    · exact List.mem_cons_of_mem _ (hkl k h2)

lemma bij_set {c : LRUCache V} (h : Bij c) (key : String) (v : V) (now : Int) :
    Bij (Set c key v now) := by
  unfold Set
  cases hf : c.items.find? (fun p => p.1 == key) with
  | some p =>
    obtain ⟨hl, hk, hlk, hkl⟩ := h
    have hmem : key ∈ c.items.map Prod.fst := (mem_of_find_some hf).2
    refine ⟨List.nodup_cons.mpr ⟨hl.not_mem_erase, hl.erase key⟩, ?_, ?_, ?_⟩
    · rw [map_fst_update]
      exact hk
    · intro k hkm
      rw [map_fst_update]
      rcases List.mem_cons.mp hkm with h1 | h2
      · exact h1 ▸ hmem
      · exact hlk k (hl.mem_erase_iff.mp h2).2
    · intro k hkm
      rw [map_fst_update] at hkm
      by_cases hkey : k = key
      · exact hkey ▸ List.mem_cons_self _ _
      · exact List.mem_cons_of_mem _ (hl.mem_erase_iff.mpr ⟨hkey, hkl k hkm⟩)
  | none =>
    have hnot : key ∉ c.items.map Prod.fst := not_mem_of_find_none hf
    by_cases hc : c.capacity ≤ (c.lruList.length : Int)
    · simp only [if_pos hc]
      exact bij_insert (bij_evictOldest h) key _
        (fun hm => hnot (keys_evictOldest_subset c hm))
    · simp only [if_neg hc]
      exact bij_insert h key _ hnot

/-! ## Size bounds -/

lemma length_remove_le (c : LRUCache V) (key : String) :
    (remove c key).items.length ≤ c.items.length := by
  unfold remove
  split
  · exact List.length_eraseP_le c.items
  · exact le_refl _

lemma length_evictOldest (c : LRUCache V) (h : Bij c)
    (hne : c.lruList ≠ []) :
    (evictOldest c).items.length + 1 = c.items.length := by
  unfold evictOldest
  split
  · rename_i lkey heq
    have hmem : lkey ∈ c.lruList := List.mem_of_mem_getLast? heq
    have hkeys : lkey ∈ c.items.map Prod.fst := h.2.2.1 lkey hmem
    obtain ⟨q, hq, hqk⟩ := List.mem_map.mp hkeys
    show (remove c lkey).items.length + 1 = c.items.length
    unfold remove
    split
    · rename_i p hfq
      exact List.length_eraseP_add_one hq (by simp [hqk])
    · rename_i hfq
      exact absurd hkeys (not_mem_of_find_none hfq)
  · rename_i heq
    exact absurd (List.getLast?_eq_none_iff.mp heq) hne

lemma size_get_le (c : LRUCache V) (key : String) (now : Int) :
    (Get c key now).2.items.length ≤ c.items.length := by
  unfold Get
  split
  · exact le_refl _
  · split
    · exact length_remove_le c key
    · exact le_refl _

lemma size_set_le {c : LRUCache V} (h : Bij c) (hcap : 0 < c.capacity)
    (hle : (c.items.length : Int) ≤ c.capacity)
    (key : String) (v : V) (now : Int) :
    ((Set c key v now).items.length : Int) ≤ c.capacity := by
  unfold Set
  cases hf : c.items.find? (fun p => p.1 == key) with
  | some p =>
    simpa using hle
  | none =>
    by_cases hc : c.capacity ≤ (c.lruList.length : Int)
    · simp only [if_pos hc, List.length_cons]
      have hne : c.lruList ≠ [] := by
        intro h0
        rw [h0] at hc
        simp at hc
        omega
      have he := length_evictOldest c h hne
      push_cast
      omega
    · simp only [if_neg hc, List.length_cons]
      have hlen := bij_length h
      push_cast
      omega

/-! ## Frame facts for `capacity`, and preservation along runs -/

lemma get_capacity (c : LRUCache V) (key : String) (now : Int) :
    (Get c key now).2.capacity = c.capacity := by
  unfold Get
  split
  · rfl
  · split
    · exact (remove_frame c key).1
    · rfl

lemma set_capacity (c : LRUCache V) (key : String) (v : V) (now : Int) :
    (Set c key v now).capacity = c.capacity := by
  unfold Set
  split
  · rfl
  · split
    · exact (evictOldest_frame c).1
    · rfl

lemma capacity_applyOp (c : LRUCache V) (op : CacheOp V) :
    (applyOp c op).capacity = c.capacity := by
  cases op with
  | get key now => exact get_capacity c key now
  | set key v now => exact set_capacity c key v now
  | del key => exact (remove_frame c key).1
  | clear => rfl

/-- The combined invariant: the bijection plus the capacity bound. -/
def Good (c : LRUCache V) : Prop :=
  Bij c ∧ (c.items.length : Int) ≤ c.capacity

lemma good_applyOp {c : LRUCache V} (hg : Good c) (hcap : 0 < c.capacity)
    (op : CacheOp V) : Good (applyOp c op) := by
  obtain ⟨hb, hle⟩ := hg
  cases op with
  | get key now =>
    simp only [applyOp]
    refine ⟨bij_get hb key now, ?_⟩
    rw [show (Get c key now).2.capacity = c.capacity from get_capacity c key now]
    exact le_trans (by exact_mod_cast size_get_le c key now) hle
  | set key v now =>
    simp only [applyOp]
    refine ⟨bij_set hb key v now, ?_⟩
    rw [show (Set c key v now).capacity = c.capacity from set_capacity c key v now]
    exact size_set_le hb hcap hle key v now
  | del key =>
    simp only [applyOp]
    refine ⟨bij_remove hb key, ?_⟩
    rw [show (Delete c key).capacity = c.capacity from (remove_frame c key).1]
    exact le_trans (by exact_mod_cast length_remove_le c key) hle
  | clear =>
    refine ⟨bij_clear c, ?_⟩
    show ((0 : Nat) : Int) ≤ c.capacity
    omega

lemma good_runOps {c : LRUCache V} (hg : Good c) (hcap : 0 < c.capacity)
    (ops : List (CacheOp V)) :
    Good (runOps c ops) ∧ (runOps c ops).capacity = c.capacity := by
  induction ops generalizing c with
  | nil => exact ⟨hg, rfl⟩
  | cons op t ih =>
    have h1 : Good (applyOp c op) := good_applyOp hg hcap op
    have hc1 : (applyOp c op).capacity = c.capacity := capacity_applyOp c op
    have h2 := ih (c := applyOp c op) h1 (by rw [hc1]; exact hcap)
    refine ⟨h2.1, ?_⟩
    rw [show runOps c (op :: t) = runOps (applyOp c op) t from rfl, h2.2, hc1]

lemma good_new (V : Type) (capacity ttl : Int) (hcap : 0 < capacity) :
    Good (NewLRUCache V capacity ttl) := by
  refine ⟨⟨List.nodup_nil, List.nodup_nil, ?_, ?_⟩, ?_⟩
  · intro k hk
    exact absurd hk (List.not_mem_nil k)
  · intro k hk
    exact absurd hk (List.not_mem_nil k)
  · show ((0 : Nat) : Int) ≤ capacity
    omega

/-! ## Concrete states used by the claim theorems and witnesses -/

/-- Capacity-2 cache after `Set(a,1); Set(b,2); Get(a); Set(c,3)` at time 0
with TTL 1000. -/
def c4_state : LRUCache Nat :=
  Set (Get (Set (Set (NewLRUCache Nat 2 1000) "a" 1 0) "b" 2 0) "a" 0).2
    "c" 3 0

/-- A cache whose counters read 3 hits and 1 miss. -/
def c5_state : LRUCache Nat :=
  { NewLRUCache Nat 4 100 with hits := 3, misses := 1 }

/-- A cache holding only the key `"a"`. -/
def c7_state : LRUCache Nat :=
  Set (NewLRUCache Nat 2 1000) "a" 1 0

/-- A TTL-0 cache holding `"a"` with `expiration = 0`. -/
def c1_state : LRUCache Nat :=
  Set (NewLRUCache Nat 10 0) "a" 5 0

/-- A cache constructed with capacity 0. -/
def c3_state : LRUCache Nat :=
  NewLRUCache Nat 0 100

/-- A cache holding only the key `"a"` (entry `⟨1, 1000⟩`). -/
def c6_state : LRUCache Nat :=
  Set (NewLRUCache Nat 2 1000) "a" 1 0

/-! ## Claim theorems: concrete traces and local contracts -/

/-- C4: with capacity 2 and a TTL long enough that nothing expires, the
sequence `Set(a,1), Set(b,2), Get(a), Set(c,3)` evicts exactly `b`,
bumps the evictions counter from 0 to 1, and leaves `a` and `c` readable
and `b` absent. -/
theorem lru_order_trace :
    keys c4_state = ["c", "a"] ∧
    c4_state.lruList = ["c", "a"] ∧
    c4_state.evictions = 1 ∧
    (Get c4_state "a" 0).1 = some 1 ∧
    (Get c4_state "c" 0).1 = some 3 ∧
    (Get c4_state "b" 0).1 = none := by decide

/-- C5: `Stats` reports `hit_rate_percent = h/(h+m)*100` when `h+m > 0`
and `0` when `h+m = 0`, where `h` and `m` are the current counters. -/
theorem stats_hit_rate (c : LRUCache V) (h m : Nat)
    (hh : c.hits = h) (hm : c.misses = m) :
    (0 < h + m →
      (Stats c).HitRate = (h : Rat) / ((h : Rat) + (m : Rat)) * 100) ∧
    (h + m = 0 → (Stats c).HitRate = 0) := by
  subst hh hm
  unfold Stats
  constructor
  · intro hpos
    simp only [hpos, if_true]
    push_cast
    ring
  · intro hzero
    simp [hzero]

/-- Witness for C5 at hits = 3, misses = 1. -/
theorem stats_hit_rate_witness :
    (0 < 3 + 1 →
      (Stats c5_state).HitRate = (3 : Rat) / ((3 : Rat) + (1 : Rat)) * 100) ∧
    (3 + 1 = 0 → (Stats c5_state).HitRate = 0) :=
  stats_hit_rate c5_state 3 1 rfl rfl

/-- C7: deleting an absent key leaves the whole cache state unchanged
(entry store, recency list and all four counters). -/
theorem delete_absent (c : LRUCache V) (key : String)
    (habs : c.items.find? (fun p => p.1 == key) = none) :
    Delete c key = c := by
  unfold Delete remove
  rw [habs]

/-- Witness for C7: deleting `"b"`, which is absent, is the identity. -/
theorem delete_absent_witness : Delete c7_state "b" = c7_state :=
  delete_absent c7_state "b" (by decide)

/-- C8: `Clear` empties the entry store and the recency list (so every
subsequent `Get` misses) while keeping the four counters intact. -/
theorem clear_spec (c : LRUCache V) :
    Size (Clear c) = 0 ∧
    (Clear c).items = [] ∧ (Clear c).lruList = [] ∧
    (Clear c).hits = c.hits ∧ (Clear c).misses = c.misses ∧
    (Clear c).evictions = c.evictions ∧
    (Clear c).expirations = c.expirations ∧
    (∀ key now, (Get (Clear c) key now).1 = none) := by
  refine ⟨rfl, rfl, rfl, rfl, rfl, rfl, rfl, ?_⟩
  intro key now
  rfl

/-- C1 counterexample: the entry for `"a"` has `expiresAt = 0`, and at
`now = 0` (so `now ≥ expiresAt` holds) `Get` does not remove it and does
not count an expiration or a miss — it serves the value, because the code
expires only on the strict comparison `time.Now().After(expiration)`. -/
theorem get_boundary_counterexample :
    c1_state.items.find? (fun q => q.1 == "a") = some ("a", ⟨5, 0⟩) ∧
    ((0 : Int) ≥ 0) ∧
    (Get c1_state "a" 0).1 = some 5 ∧
    (Get c1_state "a" 0).2.expirations = c1_state.expirations ∧
    (Get c1_state "a" 0).2.misses = c1_state.misses ∧
    (Get c1_state "a" 0).2.items.find? (fun q => q.1 == "a")
      = some ("a", ⟨5, 0⟩) := by decide

/-- C1 (amended): when `Get` finds the key and the current time is
*strictly greater* than the entry's `expiresAt`, it removes the entry from
both the entry store and the recency list, increments the expirations and
misses counters by one, and returns not-found.  (At `now = expiresAt` the
entry is still served: Go's `time.Now().After` is a strict comparison.) -/
theorem get_expired_removes (c : LRUCache V) (key : String) (now : Int)
    (p : String × lruItem V)
    (hl : c.lruList.Nodup) (hk : (c.items.map Prod.fst).Nodup)
    (hfind : c.items.find? (fun q => q.1 == key) = some p)
    (hexp : p.2.expiration < now) :
    (Get c key now).1 = none ∧
    (Get c key now).2.items.find? (fun q => q.1 == key) = none ∧
    key ∉ (Get c key now).2.lruList ∧
    (Get c key now).2.expirations = c.expirations + 1 ∧
    (Get c key now).2.misses = c.misses + 1 := by
  unfold Get
  rw [hfind]
  simp only [if_pos hexp, remove, hfind]
  refine ⟨trivial, ?_, ?_, trivial, trivial⟩
  · apply find_none_of_not_mem
    rw [map_fst_eraseP]
    exact hk.not_mem_erase
  · exact hl.not_mem_erase

/-- Witness for the amended C1: at `now = 1 > 0 = expiresAt` the entry is
removed and the counters move. -/
theorem get_expired_removes_witness :
    (Get c1_state "a" 1).1 = none ∧
    (Get c1_state "a" 1).2.items.find? (fun q => q.1 == "a") = none ∧
    "a" ∉ (Get c1_state "a" 1).2.lruList ∧
    (Get c1_state "a" 1).2.expirations = c1_state.expirations + 1 ∧
    (Get c1_state "a" 1).2.misses = c1_state.misses + 1 :=
  get_expired_removes c1_state "a" 1 ("a", ⟨5, 0⟩) (by decide) (by decide)
    (by decide) (by decide)

/-- C3 counterexample: `NewLRUCache` applied to capacity 0 returns a cache
that accepts operations — `Set` stores an entry and `Get` serves it — so a
non-positive capacity is not rejected at construction. -/
theorem new_nonpositive_counterexample :
    c3_state.capacity = 0 ∧
    Size (Set c3_state "a" 5 0) = 1 ∧
    (Get (Set c3_state "a" 5 0) "a" 0).1 = some 5 := by decide

/-- C3 (amended): `NewLRUCache` performs no validation of its capacity
argument: for every capacity, including non-positive ones, it returns an
initialized empty cache carrying that capacity, and the cache accepts
operations (a set key is read back). -/
theorem new_no_validation (V : Type) (capacity ttl : Int)
    (hcap : capacity ≤ 0) (httl : 0 < ttl) :
    (NewLRUCache V capacity ttl).capacity = capacity ∧
    (NewLRUCache V capacity ttl).items = [] ∧
    (NewLRUCache V capacity ttl).lruList = [] ∧
    ∀ (k : String) (v : V) (now : Int),
      (Get (Set (NewLRUCache V capacity ttl) k v now) k now).1 = some v := by
  refine ⟨rfl, rfl, rfl, ?_⟩
  intro k v now
  exact (get_set_value (NewLRUCache V capacity ttl) k v now (le_of_lt httl)).1

/-- Witness for the amended C3 at capacity `-3`. -/
theorem new_no_validation_witness :
    (NewLRUCache Nat (-3) 100).capacity = -3 ∧
    (NewLRUCache Nat (-3) 100).items = [] ∧
    (NewLRUCache Nat (-3) 100).lruList = [] ∧
    ∀ (k : String) (v : Nat) (now : Int),
      (Get (Set (NewLRUCache Nat (-3) 100) k v now) k now).1 = some v :=
  new_no_validation Nat (-3) 100 (by decide) (by decide)

/-- C6: `Set` on an already-present key overwrites the stored value, stamps
`expiresAt = now + ttl`, moves the key to the front of the recency list,
and leaves `Size` and the evictions counter unchanged. -/
theorem set_existing (c : LRUCache V) (key : String) (v : V) (now : Int)
    (p : String × lruItem V)
    (hfind : c.items.find? (fun q => q.1 == key) = some p) :
    (Set c key v now).items.find? (fun q => q.1 == key)
        = some (key, ⟨v, now + c.ttl⟩) ∧
    (Set c key v now).lruList = key :: c.lruList.erase key ∧
    (Set c key v now).lruList.head? = some key ∧
    Size (Set c key v now) = Size c ∧
    (Set c key v now).evictions = c.evictions := by
  have hlru : (Set c key v now).lruList = key :: c.lruList.erase key := by
    unfold Set
    rw [hfind]
  refine ⟨find_set c key v now, hlru, by simp [hlru], ?_, ?_⟩
  · unfold Size Set
    rw [hfind]
    simp
  · unfold Set
    rw [hfind]

/-- Witness for C6: updating the present key `"a"` at time 5. -/
theorem set_existing_witness :
    (Set c6_state "a" 9 5).items.find? (fun q => q.1 == "a")
        = some ("a", ⟨9, 5 + c6_state.ttl⟩) ∧
    (Set c6_state "a" 9 5).lruList = "a" :: c6_state.lruList.erase "a" ∧
    (Set c6_state "a" 9 5).lruList.head? = some "a" ∧
    Size (Set c6_state "a" 9 5) = Size c6_state ∧
    (Set c6_state "a" 9 5).evictions = c6_state.evictions :=
  set_existing c6_state "a" 9 5 ("a", ⟨1, 1000⟩) (by decide)

/-- C10: a `Get` immediately after a `Set` of the same key, before any time
has passed and with a positive TTL, returns the written value and
increments the hits counter by one. -/
theorem get_after_set (c : LRUCache V) (key : String) (v : V) (now : Int)
    (httl : 0 < c.ttl) :
    (Get (Set c key v now) key now).1 = some v ∧
    (Get (Set c key v now) key now).2.hits = c.hits + 1 :=
  get_set_value c key v now (le_of_lt httl)

/-- Witness for C10 with TTL 50 at time 0. -/
theorem get_after_set_witness :
    (Get (Set (NewLRUCache Nat 3 50) "k" 7 0) "k" 0).1 = some 7 ∧
    (Get (Set (NewLRUCache Nat 3 50) "k" 7 0) "k" 0).2.hits
      = (NewLRUCache Nat 3 50).hits + 1 :=
  get_after_set (NewLRUCache Nat 3 50) "k" 7 0 (by decide)

/-- C2: starting from a cache constructed with a positive capacity, every
finite sequence of Get/Set/Delete/Clear operations keeps
`Size() ≤ capacity`. -/
theorem capacity_bound (V : Type) (capacity ttl : Int) (hcap : 0 < capacity)
    (ops : List (CacheOp V)) :
    (Size (runOps (NewLRUCache V capacity ttl) ops) : Int) ≤ capacity := by
  have h := good_runOps (good_new V capacity ttl hcap) hcap ops
  have hle := h.1.2
  rw [h.2] at hle
  exact hle

/-- Witness for C2: a run that forces an eviction on a capacity-2 cache. -/
theorem capacity_bound_witness :
    (Size (runOps (NewLRUCache Nat 2 100)
        [CacheOp.set "a" 1 0, CacheOp.set "b" 2 0, CacheOp.set "c" 3 0,
         CacheOp.get "a" 0, CacheOp.del "b", CacheOp.clear,
         CacheOp.set "d" 4 0]) : Int) ≤ 2 :=
  capacity_bound Nat 2 100 (by decide)
    [CacheOp.set "a" 1 0, CacheOp.set "b" 2 0, CacheOp.set "c" 3 0,
     CacheOp.get "a" 0, CacheOp.del "b", CacheOp.clear,
     CacheOp.set "d" 4 0]

/-- C9: on every state reachable from a fresh positive-capacity cache by a
finite sequence of operations (hence after every single operation), the
recency list and the entry store are duplicate-free and carry exactly the
same keys — a bijection between entries and recency positions — so their
sizes agree. -/
theorem recency_bijection (V : Type) (capacity ttl : Int) (hcap : 0 < capacity)
    (ops : List (CacheOp V)) :
    Bij (runOps (NewLRUCache V capacity ttl) ops) ∧
    (runOps (NewLRUCache V capacity ttl) ops).lruList.Perm
      ((runOps (NewLRUCache V capacity ttl) ops).items.map Prod.fst) ∧
    (runOps (NewLRUCache V capacity ttl) ops).lruList.length
      = Size (runOps (NewLRUCache V capacity ttl) ops) := by
  have h := (good_runOps (good_new V capacity ttl hcap) hcap ops).1.1
  exact ⟨h, bij_perm h, bij_length h⟩

/-- Witness for C9 after a run with a hit, an eviction, and a delete. -/
theorem recency_bijection_witness :
    Bij (runOps (NewLRUCache Nat 2 100)
        [CacheOp.set "a" 1 0, CacheOp.set "b" 2 0, CacheOp.get "a" 0,
         CacheOp.set "c" 3 0, CacheOp.del "a"]) ∧
    (runOps (NewLRUCache Nat 2 100)
        [CacheOp.set "a" 1 0, CacheOp.set "b" 2 0, CacheOp.get "a" 0,
         CacheOp.set "c" 3 0, CacheOp.del "a"]).lruList.Perm
      ((runOps (NewLRUCache Nat 2 100)
        [CacheOp.set "a" 1 0, CacheOp.set "b" 2 0, CacheOp.get "a" 0,
         CacheOp.set "c" 3 0, CacheOp.del "a"]).items.map Prod.fst) ∧
    (runOps (NewLRUCache Nat 2 100)
        [CacheOp.set "a" 1 0, CacheOp.set "b" 2 0, CacheOp.get "a" 0,
         CacheOp.set "c" 3 0, CacheOp.del "a"]).lruList.length
      = Size (runOps (NewLRUCache Nat 2 100)
        [CacheOp.set "a" 1 0, CacheOp.set "b" 2 0, CacheOp.get "a" 0,
         CacheOp.set "c" 3 0, CacheOp.del "a"]) :=
  recency_bijection Nat 2 100 (by decide)
    [CacheOp.set "a" 1 0, CacheOp.set "b" 2 0, CacheOp.get "a" 0,
     CacheOp.set "c" 3 0, CacheOp.del "a"]

end LruCache
